import Mathlib

/-!
The fixed-point model of `minmea.h`.

A shallow embedding of the inline functions of `minmea.h`
(`minmea_rescale`, `minmea_tofloat`, `minmea_tocoord`) and of
`enum minmea_sentence_id`, with the properties of the fixed-point model
stated and proved over it.

Conventions of the embedding:

* `int_least32_t` and `int` are 32-bit two's-complement integers, modelled
  as `Int` with an explicit `wrap32` after every arithmetic operation;
* the C operators `/` and `%` truncate toward zero (`Int.tdiv`, `Int.tmod`);
* an integer division whose divisor is zero has no result (`none`);
* `float` results are modelled by the exact rational they denote before
  any floating-point rounding, with not-a-number and infinity kept apart.
-/

namespace Minmea

/-! ## 32-bit machine integers -/

/-- Smallest value of a signed 32-bit integer. -/
def INT32_MIN : Int := -2147483648

/-- Largest value of a signed 32-bit integer. -/
def INT32_MAX : Int := 2147483647

/-- The value lies in the signed 32-bit range. -/
def inInt32 (x : Int) : Prop := INT32_MIN ≤ x ∧ x ≤ INT32_MAX

instance decidable_inInt32 (x : Int) : Decidable (inInt32 x) := by
  unfold inInt32; exact inferInstance

/-- Two's-complement wraparound of an unbounded integer to 32 bits. -/
def wrap32 (x : Int) : Int := (x + 2147483648) % 4294967296 - 2147483648

/-- The C expression `a + b` on 32-bit integers. -/
def i32_add (a b : Int) : Int := wrap32 (a + b)

/-- The C expression `a - b` on 32-bit integers. -/
def i32_sub (a b : Int) : Int := wrap32 (a - b)

/-- The C expression `a * b` on 32-bit integers. -/
def i32_mul (a b : Int) : Int := wrap32 (a * b)

/-- The C expression `a / b` on 32-bit integers: truncation toward zero, and
no result when the divisor is zero. -/
def i32_div (a b : Int) : Option Int :=
  if b = 0 then none else some (wrap32 (Int.tdiv a b))

/-- The C expression `a % b` on 32-bit integers: the remainder of the
truncating division, and no result when the divisor is zero. -/
def i32_mod (a b : Int) : Option Int :=
  if b = 0 then none else some (wrap32 (Int.tmod a b))

/-- The C expression `a > b`, an `int` that is 1 or 0. -/
def c_gt (a b : Int) : Int := if a > b then 1 else 0

/-- The C expression `a < b`, an `int` that is 1 or 0. -/
def c_lt (a b : Int) : Int := if a < b then 1 else 0

/-! ## The fixed-point type -/

/-- The C `struct minmea_float`: the fraction `value / scale`; `scale = 0`
marks an unknown value. -/
structure minmea_float where
  value : Int
  scale : Int
deriving DecidableEq, Repr

/-- Both fields of the struct hold 32-bit values. -/
def minmea_float.wf (f : minmea_float) : Prop := inInt32 f.value ∧ inInt32 f.scale

instance decidable_wf (f : minmea_float) : Decidable f.wf := by
  unfold minmea_float.wf; exact inferInstance

/-! ## `minmea_rescale` -/

/-- The C function `minmea_rescale`, evaluated in 32-bit arithmetic.

```
if (f->scale == 0) return 0;
if (f->scale == new_scale) return f->value;
if (f->scale > new_scale)
    return (f->value + ((f->value > 0) - (f->value < 0)) * f->scale/new_scale/2) / (f->scale/new_scale);
else
    return f->value * (new_scale/f->scale);
```
-/
def minmea_rescale (f : minmea_float) (new_scale : Int) : Option Int :=
  if f.scale = 0 then some 0
  else if f.scale = new_scale then some f.value
  else if f.scale > new_scale then do
    let sgn := i32_sub (c_gt f.value 0) (c_lt f.value 0)
    let a ← i32_div (i32_mul sgn f.scale) new_scale
    let adj ← i32_div a 2
    let k ← i32_div f.scale new_scale
    i32_div (i32_add f.value adj) k
  else do
    let m ← i32_div new_scale f.scale
    some (i32_mul f.value m)

/-- The exact (unwrapped) result of every arithmetic operation that
`minmea_rescale` performs, in evaluation order. The 32-bit evaluation is free
of overflow exactly when all of them lie in the 32-bit range. -/
def minmea_rescale_intermediates (f : minmea_float) (new_scale : Int) : List Int :=
  if f.scale = 0 then []
  else if f.scale = new_scale then []
  else if f.scale > new_scale then
    let sgn := c_gt f.value 0 - c_lt f.value 0
    let p := sgn * f.scale
    let a := Int.tdiv p new_scale
    let adj := Int.tdiv a 2
    let k := Int.tdiv f.scale new_scale
    let s := f.value + adj
    [sgn, p, a, adj, s, k, Int.tdiv s k]
  else
    let m := Int.tdiv new_scale f.scale
    [m, f.value * m]

/-- No arithmetic operation of `minmea_rescale f new_scale` leaves the signed
32-bit range. -/
def rescale_no_overflow (f : minmea_float) (new_scale : Int) : Prop :=
  ∀ x ∈ minmea_rescale_intermediates f new_scale, inInt32 x

instance decidable_rescale_no_overflow (f : minmea_float) (new_scale : Int) :
    Decidable (rescale_no_overflow f new_scale) := by
  unfold rescale_no_overflow; exact inferInstance

/-- The divisors of the integer divisions that `minmea_rescale` performs, in
evaluation order. -/
def minmea_rescale_divisors (f : minmea_float) (new_scale : Int) : List Int :=
  if f.scale = 0 then []
  else if f.scale = new_scale then []
  else if f.scale > new_scale then
    [new_scale, 2, new_scale, wrap32 (Int.tdiv f.scale new_scale)]
  else
    [f.scale]

/-- Rescale `f` to the scale `s2`, then rescale the result, taken as the
fixed-point `{minmea_rescale(f, s2), s2}`, back to `f.scale`. -/
def rescale_round_trip (f : minmea_float) (s2 : Int) : Option Int :=
  (minmea_rescale f s2).bind fun r => minmea_rescale ⟨r, s2⟩ f.scale

/-- Neither of the two calls of the round trip has an arithmetic operation
that leaves the signed 32-bit range. -/
def round_trip_no_overflow (f : minmea_float) (s2 : Int) : Prop :=
  rescale_no_overflow f s2
    ∧ ∀ r ∈ minmea_rescale f s2, rescale_no_overflow ⟨r, s2⟩ f.scale

instance decidable_round_trip_no_overflow (f : minmea_float) (s2 : Int) :
    Decidable (round_trip_no_overflow f s2) := by
  unfold round_trip_no_overflow; exact inferInstance

/-- The C expression `a / b` over the unbounded integers: truncation toward
zero, and no result when the divisor is zero. -/
def int_div (a b : Int) : Option Int :=
  if b = 0 then none else some (Int.tdiv a b)

/-- The body of `minmea_rescale` evaluated over the unbounded integers: the
same expressions as the source, with no wraparound. -/
def minmea_rescale_exact (f : minmea_float) (new_scale : Int) : Option Int :=
  if f.scale = 0 then some 0
  else if f.scale = new_scale then some f.value
  else if f.scale > new_scale then do
    let sgn := c_gt f.value 0 - c_lt f.value 0
    let a ← int_div (sgn * f.scale) new_scale
    let adj ← int_div a 2
    let k ← int_div f.scale new_scale
    int_div (f.value + adj) k
  else do
    let m ← int_div new_scale f.scale
    some (f.value * m)

/-! ## Conversions to `float` -/

/-- A C `float` result, taken before floating-point rounding: not-a-number,
a signed infinity, or the exact rational the expression denotes. -/
inductive c_float where
  | nan
  | inf (negative : Bool)
  | num (q : ℚ)
deriving DecidableEq

/-- The cast `(float) x` of an integer. -/
def c_float.ofInt (x : Int) : c_float := .num x

/-- Floating-point division: a zero divisor gives an infinity, or
not-a-number for `0 / 0`. -/
def c_float.div : c_float → c_float → c_float
  | .num a, .num b =>
    if b = 0 then (if a = 0 then .nan else .inf (decide (a < 0))) else .num (a / b)
  | .num _, .inf _ => .num 0
  | .inf s, .num b => .inf (s != decide (b < 0))
  | _, _ => .nan

/-- Floating-point addition. -/
def c_float.add : c_float → c_float → c_float
  | .num a, .num b => .num (a + b)
  | .num _, .inf s => .inf s
  | .inf s, .num _ => .inf s
  | .inf s, .inf t => if s = t then .inf s else .nan
  | _, _ => .nan

/-- The C function `minmea_tofloat`.

```
if (f->scale == 0) return NAN;
return (float) f->value / (float) f->scale;
```
-/
def minmea_tofloat (f : minmea_float) : c_float :=
  if f.scale = 0 then .nan
  else c_float.div (c_float.ofInt f.value) (c_float.ofInt f.scale)

/-- The C function `minmea_tocoord`; the integer products, quotient and
remainder are evaluated in 32-bit arithmetic.

```
if (f->scale == 0) return NAN;
int_least32_t degrees = f->value / (f->scale * 100);
int_least32_t minutes = f->value % (f->scale * 100);
return (float) degrees + (float) minutes / (60 * f->scale);
```
-/
def minmea_tocoord (f : minmea_float) : Option c_float :=
  if f.scale = 0 then some .nan
  else do
    let degrees ← i32_div f.value (i32_mul f.scale 100)
    let minutes ← i32_mod f.value (i32_mul f.scale 100)
    some (c_float.add (c_float.ofInt degrees)
      (c_float.div (c_float.ofInt minutes) (c_float.ofInt (i32_mul 60 f.scale))))

/-- The local variable `degrees` of `minmea_tocoord`, for a non-zero scale:
`f->value / (f->scale * 100)` in 32-bit arithmetic. -/
def minmea_tocoord_degrees (f : minmea_float) : Option Int :=
  i32_div f.value (i32_mul f.scale 100)

/-- The local variable `minutes` of `minmea_tocoord`, for a non-zero scale:
`f->value % (f->scale * 100)` in 32-bit arithmetic. -/
def minmea_tocoord_minutes (f : minmea_float) : Option Int :=
  i32_mod f.value (i32_mul f.scale 100)

/-- The body of `minmea_tocoord` with its integer products, quotient and
remainder evaluated over the unbounded integers: the same expressions as the
source, with no wraparound. -/
def minmea_tocoord_exact (f : minmea_float) : Option c_float :=
  if f.scale = 0 then some .nan
  else if f.scale * 100 = 0 then none
  else
    some (c_float.add (c_float.ofInt (Int.tdiv f.value (f.scale * 100)))
      (c_float.div (c_float.ofInt (Int.tmod f.value (f.scale * 100)))
        (c_float.ofInt (60 * f.scale))))

/-! ## Rounding modes, as the specification words them -/

/-- The rational rounded to the nearest integer, an exact half going away
from zero. -/
def round_half_away (q : ℚ) : Int :=
  if 0 ≤ q then ⌊q + 1 / 2⌋ else ⌈q - 1 / 2⌉

/-- The rational truncated toward zero: its fractional part is discarded. -/
def trunc_toward_zero (q : ℚ) : Int :=
  if 0 ≤ q then ⌊q⌋ else ⌈q⌉

/-! ## `enum minmea_sentence_id` -/

/-- The enumerators of the C `enum minmea_sentence_id`. -/
inductive minmea_sentence_id where
  | MINMEA_INVALID
  | MINMEA_UNKNOWN
  | MINMEA_SENTENCE_RMC
  | MINMEA_SENTENCE_GGA
  | MINMEA_SENTENCE_GSA
  | MINMEA_SENTENCE_GLL
  | MINMEA_SENTENCE_GST
  | MINMEA_SENTENCE_GSV
  | MINMEA_SENTENCE_VTG
  | MINMEA_SENTENCE_ZDA
  | MINMEA_SENTENCE_FLARM_LAU
  | MINMEA_SENTENCE_FLARM_LAA
  | MINMEA_SENTENCE_FLARM_LAE
  | MINMEA_SENTENCE_GARMIN_RMZ
  | MINMEA_SENTENCE_FLARM_LAR
  | MINMEA_SENTENCE_FLARM_LAF
deriving DecidableEq, Repr

/-- The enumerator list of `enum minmea_sentence_id` in declaration order,
each with its explicit initialiser when the source gives one. -/
def minmea_sentence_id_decl : List (minmea_sentence_id × Option Int) :=
  [ (.MINMEA_INVALID, some (-1)),
    (.MINMEA_UNKNOWN, some 0),
    (.MINMEA_SENTENCE_RMC, none),
    (.MINMEA_SENTENCE_GGA, none),
    (.MINMEA_SENTENCE_GSA, none),
    (.MINMEA_SENTENCE_GLL, none),
    (.MINMEA_SENTENCE_GST, none),
    (.MINMEA_SENTENCE_GSV, none),
    (.MINMEA_SENTENCE_VTG, none),
    (.MINMEA_SENTENCE_ZDA, none),
    (.MINMEA_SENTENCE_FLARM_LAU, none),
    (.MINMEA_SENTENCE_FLARM_LAA, none),
    (.MINMEA_SENTENCE_FLARM_LAE, none),
    (.MINMEA_SENTENCE_GARMIN_RMZ, none),
    (.MINMEA_SENTENCE_FLARM_LAR, none),
    (.MINMEA_SENTENCE_FLARM_LAF, none) ]

/-- The C rule for enumerator values: an explicit initialiser is taken as
written, and an enumerator without one is the previous value plus one (zero
for the first). -/
def enum_values {α : Type} : Int → List (α × Option Int) → List (α × Int)
  | _, [] => []
  | _, (a, some v) :: rest => (a, v) :: enum_values (v + 1) rest
  | next, (a, none) :: rest => (a, next) :: enum_values (next + 1) rest

/-- The numeric value of an enumerator of `enum minmea_sentence_id`. -/
def minmea_sentence_id.toInt (k : minmea_sentence_id) : Int :=
  ((enum_values 0 minmea_sentence_id_decl).lookup k).getD 0

/-- The enumerator names a recognised sentence kind: it is neither
`MINMEA_INVALID` nor `MINMEA_UNKNOWN`. -/
def minmea_sentence_id.recognised : minmea_sentence_id → Bool
  | .MINMEA_INVALID => false
  | .MINMEA_UNKNOWN => false
  | _ => true

/-- All enumerators of `enum minmea_sentence_id`, in declaration order. -/
def minmea_sentence_id.all : List minmea_sentence_id :=
  minmea_sentence_id_decl.map Prod.fst

/-! ## Machine arithmetic without overflow -/

theorem wrap32_of_inInt32 {x : Int} (h : inInt32 x) : wrap32 x = x := by
  unfold inInt32 INT32_MIN INT32_MAX at h
  unfold wrap32
  omega

theorem inInt32_wrap32 (x : Int) : inInt32 (wrap32 x) := by
  unfold inInt32 INT32_MIN INT32_MAX wrap32
  omega

/-- The sign expression `(v > 0) - (v < 0)` of the source is 1, 0 or -1. -/
theorem c_sign_cases (v : Int) :
    (0 < v ∧ c_gt v 0 - c_lt v 0 = 1) ∨ (v = 0 ∧ c_gt v 0 - c_lt v 0 = 0)
      ∨ (v < 0 ∧ c_gt v 0 - c_lt v 0 = -1) := by
  unfold c_gt c_lt
  rcases lt_trichotomy v 0 with h | h | h
  · right; right
    refine ⟨h, ?_⟩
    rw [if_neg (by omega), if_pos h]; rfl
  · right; left
    refine ⟨h, ?_⟩
    rw [if_neg (by omega), if_neg (by omega)]; rfl
  · left
    refine ⟨h, ?_⟩
    rw [if_pos h, if_neg (by omega)]; rfl

/-- Truncating division by a positive divisor of a nonnegative dividend is
the floor division. -/
theorem tdiv_pos_eq {a b : Int} (ha : 0 ≤ a) (hb : 0 < b) : Int.tdiv a b = a / b :=
  Int.tdiv_eq_ediv ha (le_of_lt hb)

/-- The quotient of the two scales in the down-scaling branch is at least 1. -/
theorem scale_quot_pos {s n : Int} (hn : 0 < n) (hlt : n < s) : 1 ≤ s / n := by
  have h : n * 1 ≤ s := by omega
  exact (Int.le_ediv_iff_mul_le hn).2 (by omega)

/-- The rounding adjustment of the source, `sgn * scale / new_scale / 2`,
is the sign times half the scale quotient. -/
theorem adj_eq (v s n : Int) (hn : 0 < n) (hlt : n < s) :
    Int.tdiv (Int.tdiv ((c_gt v 0 - c_lt v 0) * s) n) 2
      = (c_gt v 0 - c_lt v 0) * (s / n / 2) := by
  have hs : 0 ≤ s := by omega
  have hk : 1 ≤ s / n := scale_quot_pos hn hlt
  rcases c_sign_cases v with ⟨_, h⟩ | ⟨_, h⟩ | ⟨_, h⟩ <;> rw [h]
  · rw [one_mul, one_mul, tdiv_pos_eq hs hn, tdiv_pos_eq (by omega) (by norm_num)]
  · simp
  · rw [neg_one_mul, neg_one_mul, Int.neg_tdiv, Int.neg_tdiv, tdiv_pos_eq hs hn,
      tdiv_pos_eq (by omega) (by norm_num)]

/-- In the down-scaling branch, when no operation overflows, the 32-bit
evaluation returns the value of the source expression over the integers. -/
theorem minmea_rescale_down (f : minmea_float) (n : Int)
    (hpos : 0 < n) (hlt : n < f.scale) (hov : rescale_no_overflow f n) :
    minmea_rescale f n
      = some (Int.tdiv (f.value + (c_gt f.value 0 - c_lt f.value 0) * (f.scale / n / 2))
          (f.scale / n)) := by
  have hs0 : f.scale ≠ 0 := by omega
  have hsn : f.scale ≠ n := by omega
  have hk : 1 ≤ f.scale / n := scale_quot_pos hpos hlt
  have hkt : Int.tdiv f.scale n = f.scale / n := tdiv_pos_eq (by omega) hpos
  unfold rescale_no_overflow minmea_rescale_intermediates at hov
  rw [if_neg hs0, if_neg hsn, if_pos hlt] at hov
  simp only [List.mem_cons, List.mem_singleton, List.not_mem_nil, or_false, forall_eq_or_imp,
    forall_eq] at hov
  obtain ⟨h1, h2, h3, h4, h5, h6, h7⟩ := hov
  unfold minmea_rescale
  rw [if_neg hs0, if_neg hsn, if_pos hlt]
  have hn0 : n ≠ 0 := by omega
  simp only [i32_sub, i32_mul, i32_div, i32_add, wrap32_of_inInt32 h1, wrap32_of_inInt32 h2,
    wrap32_of_inInt32 h3, wrap32_of_inInt32 h4, wrap32_of_inInt32 h5, wrap32_of_inInt32 h6,
    wrap32_of_inInt32 h7, if_neg hn0, Option.bind_eq_bind, Option.some_bind, Option.pure_def,
    bind_pure_comp]
  have h20 : (2 : Int) ≠ 0 := by norm_num
  have hk0 : Int.tdiv f.scale n ≠ 0 := by rw [hkt]; omega
  simp only [if_neg h20, if_neg hk0, Option.some_bind, wrap32_of_inInt32 h4,
    wrap32_of_inInt32 h5, wrap32_of_inInt32 h7]
  rw [adj_eq f.value f.scale n hpos hlt, hkt]

/-! ## The rounding performed by the down-scaling branch -/

/-- Adding half the divisor before a floor division rounds the quotient to
the nearest integer, halves upward. -/
theorem floor_add_half (a k : Int) (hk : 0 < k) :
    ⌊(a : ℚ) / k + 1 / 2⌋ = (a + k / 2) / k := by
  rw [Int.floor_eq_iff]
  have h1 : (a + k / 2) / k * k ≤ a + k / 2 := Int.ediv_mul_le _ (ne_of_gt hk)
  have h2 : a + k / 2 < ((a + k / 2) / k + 1) * k := Int.lt_ediv_add_one_mul_self _ hk
  generalize (a + k / 2) / k = r at h1 h2 ⊢
  have h3 : 2 * (k / 2) ≤ k := by omega
  have h4 : k ≤ 2 * (k / 2) + 1 := by omega
  generalize k / 2 = j at h1 h2 h3 h4
  have hkq : (0 : ℚ) < k := by exact_mod_cast hk
  have h1q : (r : ℚ) * k ≤ a + j := by exact_mod_cast h1
  have h2q : (a : ℚ) + j + 1 ≤ (r + 1) * k := by exact_mod_cast h2
  have h3q : (2 : ℚ) * j ≤ k := by exact_mod_cast h3
  have h4q : (k : ℚ) ≤ 2 * j + 1 := by exact_mod_cast h4
  constructor
  · rw [div_add' _ _ _ (ne_of_gt hkq), le_div_iff₀ hkq]
    linarith
  · rw [div_add' _ _ _ (ne_of_gt hkq), div_lt_iff₀ hkq]
    linarith

/-- The integer expression of the down-scaling branch is the quotient
`v / k` rounded to the nearest integer, halves away from zero. -/
theorem tdiv_adjusted_eq_round (v k : Int) (hk : 0 < k) :
    Int.tdiv (v + (c_gt v 0 - c_lt v 0) * (k / 2)) k = round_half_away ((v : ℚ) / k) := by
  have hkq : (0 : ℚ) < k := by exact_mod_cast hk
  have hj : 0 ≤ k / 2 := by omega
  unfold round_half_away
  rcases c_sign_cases v with ⟨hv, h⟩ | ⟨hv, h⟩ | ⟨hv, h⟩ <;> rw [h]
  · have hq : (0 : ℚ) ≤ (v : ℚ) / k := div_nonneg (by exact_mod_cast le_of_lt hv) (le_of_lt hkq)
    rw [if_pos hq, floor_add_half v k hk, one_mul, tdiv_pos_eq (by omega) hk]
  · subst hv
    have hq : (0 : ℚ) ≤ ((0 : Int) : ℚ) / k := by simp
    rw [if_pos hq, floor_add_half 0 k hk, zero_mul, add_zero, Int.zero_tdiv, zero_add]
    exact (Int.ediv_eq_zero_of_lt hj (by omega)).symm
  · have hvq : (v : ℚ) < 0 := by exact_mod_cast hv
    have hq : ¬ (0 : ℚ) ≤ (v : ℚ) / k := not_le.2 (div_neg_of_neg_of_pos hvq hkq)
    have e1 : v + -1 * (k / 2) = -(-v + k / 2) := by ring
    have e2 : (v : ℚ) / k - 1 / 2 = -(((-v : Int) : ℚ) / k + 1 / 2) := by
      push_cast; ring
    rw [if_neg hq, e1, Int.neg_tdiv, tdiv_pos_eq (by omega) hk, e2, Int.ceil_neg,
      floor_add_half (-v) k hk]

/-- The result of `round_half_away` is a nearest integer, and at an exact
half it is the one of larger magnitude. -/
theorem round_half_away_nearest (q : ℚ) :
    |(round_half_away q : ℚ) - q| ≤ 1 / 2
      ∧ (|(round_half_away q : ℚ) - q| = 1 / 2 → |q| < |(round_half_away q : ℚ)|) := by
  unfold round_half_away
  by_cases hq : 0 ≤ q
  · rw [if_pos hq]
    have h1 : (⌊q + 1 / 2⌋ : ℚ) ≤ q + 1 / 2 := Int.floor_le _
    have h2 : q + 1 / 2 < ⌊q + 1 / 2⌋ + 1 := Int.lt_floor_add_one _
    generalize (⌊q + 1 / 2⌋ : ℚ) = r at h1 h2
    refine ⟨abs_le.2 ⟨by linarith, by linarith⟩, fun h => ?_⟩
    have hr : r - q = 1 / 2 := by
      rcases abs_eq (by norm_num : (0 : ℚ) ≤ 1 / 2) |>.1 h with h' | h'
      · exact h'
      · linarith
    rw [abs_of_nonneg hq, abs_of_nonneg (by linarith)]
    linarith
  · rw [if_neg hq]
    have hq' : q < 0 := not_le.1 hq
    have h1 : q - 1 / 2 ≤ (⌈q - 1 / 2⌉ : ℚ) := Int.le_ceil _
    have h2 : (⌈q - 1 / 2⌉ : ℚ) < q - 1 / 2 + 1 := Int.ceil_lt_add_one _
    generalize (⌈q - 1 / 2⌉ : ℚ) = r at h1 h2
    refine ⟨abs_le.2 ⟨by linarith, by linarith⟩, fun h => ?_⟩
    have hr : r - q = -(1 / 2) := by
      rcases abs_eq (by norm_num : (0 : ℚ) ≤ 1 / 2) |>.1 h with h' | h'
      · linarith
      · exact h'
    rw [abs_of_neg hq', abs_of_neg (by linarith)]
    linarith

/-- For a divisor `new_scale` of `scale`, the exact rational
`value * new_scale / scale` is `value` over the scale quotient. -/
theorem exact_quotient_eq (v s n : Int) (hn : 0 < n) (hdvd : n ∣ s) (hs : 0 < s) :
    (v : ℚ) * n / s = (v : ℚ) / ((s / n : Int) : ℚ) := by
  obtain ⟨k, rfl⟩ := hdvd
  have hn0 : n ≠ 0 := ne_of_gt hn
  have hk : 0 < k := by
    rcases lt_trichotomy k 0 with h | h | h
    · nlinarith
    · subst h; simp at hs
    · exact h
  rw [Int.mul_ediv_cancel_left k hn0]
  have hnq : (n : ℚ) ≠ 0 := by exact_mod_cast hn0
  have hkq : (k : ℚ) ≠ 0 := by exact_mod_cast ne_of_gt hk
  push_cast
  field_simp
  ring

/-- Down-scaling by a divisor of the scale, without overflow, returns the
exact rational result rounded to the nearest integer, halves away from zero. -/
theorem minmea_rescale_down_round (f : minmea_float) (n : Int)
    (hpos : 0 < n) (hlt : n < f.scale) (hdvd : n ∣ f.scale)
    (hov : rescale_no_overflow f n) :
    minmea_rescale f n = some (round_half_away ((f.value : ℚ) * n / f.scale)) := by
  have hk : 1 ≤ f.scale / n := scale_quot_pos hpos hlt
  rw [minmea_rescale_down f n hpos hlt hov, tdiv_adjusted_eq_round f.value (f.scale / n) (by omega),
    exact_quotient_eq f.value f.scale n hpos hdvd (by omega)]

/-- Rounding to nearest differs from truncation exactly when the discarded
fraction is one half or more; the result is then one step further from zero. -/
theorem round_half_away_eq_trunc (q : ℚ) :
    round_half_away q
      = if |q - (trunc_toward_zero q : ℚ)| < 1 / 2 then trunc_toward_zero q
        else if 0 ≤ q then trunc_toward_zero q + 1 else trunc_toward_zero q - 1 := by
  unfold round_half_away trunc_toward_zero
  by_cases hq : 0 ≤ q
  · simp only [if_pos hq]
    have h1 : (⌊q⌋ : ℚ) ≤ q := Int.floor_le _
    have h2 : q < ⌊q⌋ + 1 := Int.lt_floor_add_one _
    rw [abs_of_nonneg (by linarith)]
    split_ifs with h
    · rw [Int.floor_eq_iff]
      constructor <;> linarith
    · rw [Int.floor_eq_iff]
      push_cast
      constructor <;> linarith
  · simp only [if_neg hq]
    have h1 : q ≤ (⌈q⌉ : ℚ) := Int.le_ceil _
    have h2 : (⌈q⌉ : ℚ) < q + 1 := Int.ceil_lt_add_one _
    rw [abs_of_nonpos (by linarith)]
    split_ifs with h
    · rw [Int.ceil_eq_iff]
      constructor <;> linarith
    · rw [Int.ceil_eq_iff]
      push_cast
      constructor <;> linarith

/-- An integer is its own rounding. -/
theorem round_half_away_intCast (z : Int) : round_half_away (z : ℚ) = z := by
  unfold round_half_away
  split_ifs
  · rw [Int.floor_eq_iff]
    constructor <;> linarith
  · rw [Int.ceil_eq_iff]
    constructor <;> linarith

/-- In the up-scaling branch, when no operation overflows, the 32-bit
evaluation returns the value times the scale quotient. -/
theorem minmea_rescale_up (f : minmea_float) (n : Int)
    (hpos : 0 < f.scale) (hlt : f.scale < n) (hov : rescale_no_overflow f n) :
    minmea_rescale f n = some (f.value * (n / f.scale)) := by
  have hs0 : f.scale ≠ 0 := by omega
  have hsn : f.scale ≠ n := by omega
  have hgt : ¬ f.scale > n := by omega
  have hkt : Int.tdiv n f.scale = n / f.scale := tdiv_pos_eq (by omega) hpos
  unfold rescale_no_overflow minmea_rescale_intermediates at hov
  rw [if_neg hs0, if_neg hsn, if_neg hgt] at hov
  simp only [List.mem_cons, List.mem_singleton, List.not_mem_nil, or_false, forall_eq_or_imp,
    forall_eq] at hov
  obtain ⟨h1, h2⟩ := hov
  rw [hkt] at h1 h2
  unfold minmea_rescale
  rw [if_neg hs0, if_neg hsn, if_neg hgt]
  simp only [i32_mul, i32_div, if_neg hs0, hkt, wrap32_of_inInt32 h1, wrap32_of_inInt32 h2,
    Option.bind_eq_bind, Option.some_bind]

/-- Rescaling to the scale the value already has returns the value. -/
theorem minmea_rescale_same (f : minmea_float) (hs : f.scale ≠ 0) :
    minmea_rescale f f.scale = some f.value := by
  unfold minmea_rescale
  rw [if_neg hs, if_pos rfl]

/-! ## Claims on `minmea_rescale` -/

/-- C1: down-scaling to a divisor `new_scale` of `f.scale`, with no
intermediate result leaving the signed 32-bit range, returns the exact rational
`f.value * new_scale / f.scale` rounded to the nearest integer, exact halves
away from zero: the result is within one half of the exact value, and at
distance exactly one half it is the candidate of larger magnitude. -/
theorem minmea_rescale_rounds_half_away (f : minmea_float) (new_scale : Int)
    (hpos : 0 < new_scale) (hlt : new_scale < f.scale) (hdvd : new_scale ∣ f.scale)
    (hov : rescale_no_overflow f new_scale) :
    ∃ r : Int, minmea_rescale f new_scale = some r
      ∧ r = round_half_away ((f.value : ℚ) * new_scale / f.scale)
      ∧ |(r : ℚ) - (f.value : ℚ) * new_scale / f.scale| ≤ 1 / 2
      ∧ (|(r : ℚ) - (f.value : ℚ) * new_scale / f.scale| = 1 / 2 →
          |(f.value : ℚ) * new_scale / f.scale| < |(r : ℚ)|) :=
  ⟨_, minmea_rescale_down_round f new_scale hpos hlt hdvd hov, rfl,
    round_half_away_nearest _⟩

/-- C1, at the inputs the claim names: `{1235, 10}`, `{-1235, 10}` and
`{1234, 10}` rescaled to 1 give 124, -124 and 123, and at `{1235, 10}` the
hypotheses of the theorem hold. -/
theorem minmea_rescale_rounds_half_away_witness :
    minmea_rescale ⟨1235, 10⟩ 1 = some 124
      ∧ minmea_rescale ⟨-1235, 10⟩ 1 = some (-124)
      ∧ minmea_rescale ⟨1234, 10⟩ 1 = some 123
      ∧ ((0 : Int) < 1 ∧ (1 : Int) < 10 ∧ (1 : Int) ∣ 10 ∧ rescale_no_overflow ⟨1235, 10⟩ 1)
      ∧ ∃ r : Int, minmea_rescale ⟨1235, 10⟩ 1 = some r
          ∧ r = round_half_away (((1235 : Int) : ℚ) * (1 : Int) / (10 : Int))
          ∧ |(r : ℚ) - ((1235 : Int) : ℚ) * (1 : Int) / (10 : Int)| ≤ 1 / 2
          ∧ (|(r : ℚ) - ((1235 : Int) : ℚ) * (1 : Int) / (10 : Int)| = 1 / 2 →
              |((1235 : Int) : ℚ) * (1 : Int) / (10 : Int)| < |(r : ℚ)|) :=
  ⟨by decide, by decide, by decide, ⟨by decide, by decide, by decide, by decide⟩,
    minmea_rescale_rounds_half_away ⟨1235, 10⟩ 1 (by decide) (by decide) (by decide) (by decide)⟩

/-- C2 fails as stated: `{1235, 10}` rescaled to 1 satisfies the hypotheses,
the exact value 123.5 truncates to 123, and the function returns 124. -/
theorem minmea_rescale_not_truncation :
    ((0 : Int) < 1 ∧ (1 : Int) < 10 ∧ (1 : Int) ∣ 10 ∧ rescale_no_overflow ⟨1235, 10⟩ 1)
      ∧ trunc_toward_zero (((1235 : Int) : ℚ) * (1 : Int) / (10 : Int)) = 123
      ∧ minmea_rescale ⟨1235, 10⟩ 1 = some 124
      ∧ minmea_rescale ⟨1235, 10⟩ 1
          ≠ some (trunc_toward_zero (((1235 : Int) : ℚ) * (1 : Int) / (10 : Int))) := by
  have ht : trunc_toward_zero (((1235 : Int) : ℚ) * (1 : Int) / (10 : Int)) = 123 := by
    unfold trunc_toward_zero
    rw [if_pos (by norm_num), Int.floor_eq_iff]
    norm_num
  refine ⟨⟨by decide, by decide, by decide, by decide⟩, ht, by decide, ?_⟩
  rw [ht]
  decide

/-- C2, amended: down-scaling to a divisor `new_scale` of `f.scale`, without
overflow, returns the exact rational truncated toward zero only when the
discarded fraction is below one half; when it is one half or more the result
is the truncation moved one step away from zero. -/
theorem minmea_rescale_truncates_below_half (f : minmea_float) (new_scale : Int)
    (hpos : 0 < new_scale) (hlt : new_scale < f.scale) (hdvd : new_scale ∣ f.scale)
    (hov : rescale_no_overflow f new_scale) :
    minmea_rescale f new_scale
      = some (
          if |(f.value : ℚ) * new_scale / f.scale
                - (trunc_toward_zero ((f.value : ℚ) * new_scale / f.scale) : ℚ)| < 1 / 2
          then trunc_toward_zero ((f.value : ℚ) * new_scale / f.scale)
          else if 0 ≤ (f.value : ℚ) * new_scale / f.scale
            then trunc_toward_zero ((f.value : ℚ) * new_scale / f.scale) + 1
            else trunc_toward_zero ((f.value : ℚ) * new_scale / f.scale) - 1) := by
  rw [minmea_rescale_down_round f new_scale hpos hlt hdvd hov, round_half_away_eq_trunc]

/-- C2, amended, at `{1234, 10}` rescaled to 1: the discarded fraction 0.4 is
below one half and the result is the truncation. -/
theorem minmea_rescale_truncates_below_half_witness :
    ((0 : Int) < 1 ∧ (1 : Int) < 10 ∧ (1 : Int) ∣ 10 ∧ rescale_no_overflow ⟨1234, 10⟩ 1)
      ∧ minmea_rescale ⟨1234, 10⟩ 1
        = some (
          if |((1234 : Int) : ℚ) * (1 : Int) / (10 : Int)
                - (trunc_toward_zero (((1234 : Int) : ℚ) * (1 : Int) / (10 : Int)) : ℚ)| < 1 / 2
          then trunc_toward_zero (((1234 : Int) : ℚ) * (1 : Int) / (10 : Int))
          else if 0 ≤ ((1234 : Int) : ℚ) * (1 : Int) / (10 : Int)
            then trunc_toward_zero (((1234 : Int) : ℚ) * (1 : Int) / (10 : Int)) + 1
            else trunc_toward_zero (((1234 : Int) : ℚ) * (1 : Int) / (10 : Int)) - 1) :=
  ⟨⟨by decide, by decide, by decide, by decide⟩,
    minmea_rescale_truncates_below_half ⟨1234, 10⟩ 1 (by decide) (by decide) (by decide)
      (by decide)⟩

/-- C3: round trip through a finer scale. For `f.scale > 0` and `s2` a
positive integer multiple of `f.scale`, with no intermediate result of either
call leaving the signed 32-bit range, rescaling `f` to `s2` and the result
`{minmea_rescale(f, s2), s2}` back to `f.scale` returns exactly `f.value`. -/
theorem rescale_round_trip_finer (f : minmea_float) (s2 : Int)
    (hs : 0 < f.scale) (hs2 : 0 < s2) (hmul : f.scale ∣ s2)
    (hov : round_trip_no_overflow f s2) :
    rescale_round_trip f s2 = some f.value := by
  have hle : f.scale ≤ s2 := Int.le_of_dvd hs2 hmul
  unfold rescale_round_trip
  rcases eq_or_lt_of_le hle with heq | hlt
  · rw [← heq, minmea_rescale_same f (by omega)]
    exact minmea_rescale_same ⟨f.value, f.scale⟩ (by show f.scale ≠ 0; omega)
  · have h1 : minmea_rescale f s2 = some (f.value * (s2 / f.scale)) :=
      minmea_rescale_up f s2 hs hlt hov.1
    have hov2 : rescale_no_overflow ⟨f.value * (s2 / f.scale), s2⟩ f.scale :=
      hov.2 _ (by rw [h1]; rfl)
    have hk : 1 ≤ s2 / f.scale := scale_quot_pos hs hlt
    have hkq : ((s2 / f.scale : Int) : ℚ) ≠ 0 := by
      have : s2 / f.scale ≠ 0 := by omega
      exact_mod_cast this
    rw [h1, Option.some_bind, minmea_rescale_down ⟨f.value * (s2 / f.scale), s2⟩ f.scale hs hlt hov2]
    show some (Int.tdiv (f.value * (s2 / f.scale)
      + (c_gt (f.value * (s2 / f.scale)) 0 - c_lt (f.value * (s2 / f.scale)) 0)
        * (s2 / f.scale / 2)) (s2 / f.scale)) = some f.value
    rw [tdiv_adjusted_eq_round _ _ (by omega), Int.cast_mul, mul_div_assoc, div_self hkq,
      mul_one, round_half_away_intCast]

/-- C3, at `{1234, 10}` through the finer scale 1000: the hypotheses hold and
the round trip returns 1234. -/
theorem rescale_round_trip_finer_witness :
    ((0 : Int) < 10 ∧ (0 : Int) < 1000 ∧ (10 : Int) ∣ 1000
        ∧ round_trip_no_overflow ⟨1234, 10⟩ 1000)
      ∧ minmea_rescale ⟨1234, 10⟩ 1000 = some 123400
      ∧ rescale_round_trip ⟨1234, 10⟩ 1000 = some 1234 :=
  ⟨⟨by decide, by decide, by decide, by decide⟩, by decide,
    rescale_round_trip_finer ⟨1234, 10⟩ 1000 (by decide) (by decide) (by decide) (by decide)⟩

/-- C4 fails as stated: 1 is a positive divisor of the scale 10, `{1234, 10}`
rescaled to 1 gives 123, and `{123, 1}` rescaled back to 10 gives 1230, not
1234; no operation overflows on the way. -/
theorem rescale_round_trip_coarser_lossy :
    ((0 : Int) < 10 ∧ (0 : Int) < 1 ∧ (1 : Int) ∣ 10 ∧ round_trip_no_overflow ⟨1234, 10⟩ 1)
      ∧ minmea_rescale ⟨1234, 10⟩ 1 = some 123
      ∧ minmea_rescale ⟨123, 1⟩ 10 = some 1230
      ∧ rescale_round_trip ⟨1234, 10⟩ 1 = some 1230
      ∧ rescale_round_trip ⟨1234, 10⟩ 1 ≠ some (1234 : Int) := by
  decide

/-- C4, amended: round trip through a coarser scale. For `f.scale > 0` and a
positive divisor `s2` of `f.scale`, with no intermediate result of either call
leaving the signed 32-bit range, the round trip returns the multiple of
`f.scale / s2` nearest to `f.value`: it is within half of `f.scale / s2` of
`f.value`, and it is exactly `f.value` if and only if `f.value` is a multiple
of `f.scale / s2`. -/
theorem rescale_round_trip_coarser (f : minmea_float) (s2 : Int)
    (hs : 0 < f.scale) (hs2 : 0 < s2) (hdvd : s2 ∣ f.scale)
    (hov : round_trip_no_overflow f s2) :
    ∃ r : Int, rescale_round_trip f s2 = some r
      ∧ (f.scale / s2) ∣ r
      ∧ 2 * |r - f.value| ≤ f.scale / s2
      ∧ (r = f.value ↔ (f.scale / s2) ∣ f.value) := by
  have hle : s2 ≤ f.scale := Int.le_of_dvd hs hdvd
  unfold rescale_round_trip
  rcases eq_or_lt_of_le hle with heq | hlt
  · refine ⟨f.value, ?_, ?_, ?_, ?_⟩
    · rw [heq, minmea_rescale_same f (by omega)]
      exact minmea_rescale_same ⟨f.value, f.scale⟩ (by show f.scale ≠ 0; omega)
    · rw [heq, Int.ediv_self (by omega)]; exact one_dvd _
    · rw [heq, Int.ediv_self (by omega)]; simp
    · rw [heq, Int.ediv_self (by omega)]; simp
  · have hk : 1 ≤ f.scale / s2 := scale_quot_pos hs2 hlt
    have hk0 : f.scale / s2 ≠ 0 := by omega
    have hkq : (0 : ℚ) < ((f.scale / s2 : Int) : ℚ) := by exact_mod_cast (by omega : 0 < f.scale / s2)
    have h1 : minmea_rescale f s2
        = some (round_half_away ((f.value : ℚ) / ((f.scale / s2 : Int) : ℚ))) := by
      rw [minmea_rescale_down f s2 hs2 hlt hov.1, tdiv_adjusted_eq_round _ _ (by omega)]
    have hov2 := hov.2 _ (by rw [h1]; rfl)
    have h2 := minmea_rescale_up ⟨round_half_away ((f.value : ℚ) / ((f.scale / s2 : Int) : ℚ)), s2⟩
      f.scale hs2 hlt hov2
    have hn := round_half_away_nearest ((f.value : ℚ) / ((f.scale / s2 : Int) : ℚ))
    refine ⟨_, by rw [h1, Option.some_bind]; exact h2, dvd_mul_left _ _, ?_, ?_⟩
    · show 2 * |round_half_away ((f.value : ℚ) / ((f.scale / s2 : Int) : ℚ)) * (f.scale / s2)
        - f.value| ≤ f.scale / s2
      generalize f.scale / s2 = k at hk hk0 hkq hn
      generalize round_half_away ((f.value : ℚ) / (k : ℚ)) = r at hn
      have hb := abs_le.1 hn.1
      have e : (r : ℚ) - (f.value : ℚ) / k = ((r : ℚ) * k - f.value) / k := by
        field_simp
      rw [e, le_div_iff₀ hkq, div_le_iff₀ hkq] at hb
      have hq : (2 : ℚ) * |(r : ℚ) * k - f.value| ≤ k := by
        have := abs_le.2 (And.intro (by linarith [hb.1] : -((k : ℚ) / 2) ≤ (r : ℚ) * k - f.value)
          (by linarith [hb.2]))
        linarith
      exact_mod_cast hq
    · show round_half_away ((f.value : ℚ) / ((f.scale / s2 : Int) : ℚ)) * (f.scale / s2)
        = f.value ↔ _
      constructor
      · intro h
        exact ⟨_, by rw [mul_comm]; exact h.symm⟩
      · rintro ⟨w, hw⟩
        have e : (f.value : ℚ) / ((f.scale / s2 : Int) : ℚ) = (w : ℚ) := by
          rw [div_eq_iff (ne_of_gt hkq), mul_comm]
          exact_mod_cast hw
        rw [e, round_half_away_intCast, mul_comm]
        exact hw.symm

/-- C4, amended, at `{1230, 10}` through the coarser scale 1: 1230 is a
multiple of 10 and the round trip returns it unchanged. -/
theorem rescale_round_trip_coarser_witness :
    ((0 : Int) < 10 ∧ (0 : Int) < 1 ∧ (1 : Int) ∣ 10 ∧ round_trip_no_overflow ⟨1230, 10⟩ 1)
      ∧ rescale_round_trip ⟨1230, 10⟩ 1 = some 1230
      ∧ ∃ r : Int, rescale_round_trip ⟨1230, 10⟩ 1 = some r
          ∧ ((10 : Int) / 1) ∣ r
          ∧ 2 * |r - 1230| ≤ (10 : Int) / 1
          ∧ (r = 1230 ↔ ((10 : Int) / 1) ∣ 1230) :=
  ⟨⟨by decide, by decide, by decide, by decide⟩, by decide,
    rescale_round_trip_coarser ⟨1230, 10⟩ 1 (by decide) (by decide) (by decide) (by decide)⟩

/-- C5: rescaling to a finer scale is exact. For `f.scale > 0` and a 32-bit
`new_scale` that is a positive integer multiple of `f.scale`, with
`f.value * (new_scale / f.scale)` inside the signed 32-bit range, the result
`r` satisfies `r * f.scale = f.value * new_scale`, so `r / new_scale` and
`f.value / f.scale` are the same rational; for `new_scale = f.scale` the
result is `f.value`. -/
theorem minmea_rescale_finer_exact (f : minmea_float) (new_scale : Int)
    (hs : 0 < f.scale) (hn : inInt32 new_scale) (hpos : 0 < new_scale)
    (hmul : f.scale ∣ new_scale)
    (hprod : inInt32 (f.value * (new_scale / f.scale))) :
    ∃ r : Int, minmea_rescale f new_scale = some r
      ∧ r * f.scale = f.value * new_scale
      ∧ (r : ℚ) / new_scale = (f.value : ℚ) / f.scale
      ∧ (new_scale = f.scale → r = f.value) := by
  have hle : f.scale ≤ new_scale := Int.le_of_dvd hpos hmul
  have hsq : (f.scale : ℚ) ≠ 0 := by exact_mod_cast (ne_of_gt hs)
  have hnq : (new_scale : ℚ) ≠ 0 := by exact_mod_cast (ne_of_gt hpos)
  rcases eq_or_lt_of_le hle with heq | hlt
  · refine ⟨f.value, ?_, by rw [heq], by rw [heq], fun _ => rfl⟩
    rw [← heq]; exact minmea_rescale_same f (by omega)
  · have hk : 1 ≤ new_scale / f.scale := scale_quot_pos hs hlt
    have hkle : new_scale / f.scale ≤ new_scale := Int.ediv_le_self _ (by omega)
    have hov : rescale_no_overflow f new_scale := by
      unfold rescale_no_overflow minmea_rescale_intermediates
      rw [if_neg (by omega), if_neg (by omega), if_neg (by omega)]
      simp only [List.mem_cons, List.mem_singleton, List.not_mem_nil, or_false,
        forall_eq_or_imp, forall_eq]
      rw [tdiv_pos_eq (by omega) hs]
      refine ⟨?_, hprod⟩
      unfold inInt32 INT32_MIN INT32_MAX at hn ⊢
      omega
    have hmk : new_scale / f.scale * f.scale = new_scale := Int.ediv_mul_cancel hmul
    have hr : f.value * (new_scale / f.scale) * f.scale = f.value * new_scale := by
      rw [mul_assoc, hmk]
    refine ⟨_, minmea_rescale_up f new_scale hs hlt hov, hr, ?_, fun h => by omega⟩
    rw [div_eq_div_iff hnq hsq]
    exact_mod_cast hr

/-- C5, at `{1234, 10}` rescaled to 1000: the hypotheses hold and the result
is 123400. -/
theorem minmea_rescale_finer_exact_witness :
    ((0 : Int) < 10 ∧ inInt32 1000 ∧ (0 : Int) < 1000 ∧ (10 : Int) ∣ 1000
        ∧ inInt32 (1234 * (1000 / 10)))
      ∧ minmea_rescale ⟨1234, 10⟩ 1000 = some 123400
      ∧ ∃ r : Int, minmea_rescale ⟨1234, 10⟩ 1000 = some r
          ∧ r * 10 = 1234 * 1000
          ∧ (r : ℚ) / (1000 : Int) = ((1234 : Int) : ℚ) / (10 : Int)
          ∧ ((1000 : Int) = 10 → r = 1234) :=
  ⟨⟨by decide, by decide, by decide, by decide, by decide⟩, by decide,
    minmea_rescale_finer_exact ⟨1234, 10⟩ 1000 (by decide) (by decide) (by decide) (by decide)
      (by decide)⟩

/-- C6: the unknown sentinel short-circuits rescaling. For every value and
every `new_scale`, zero and negative ones included, `minmea_rescale` applied to
a fixed-point with `scale == 0` returns 0, performs no division and no other
arithmetic operation. -/
theorem minmea_rescale_unknown (value new_scale : Int) :
    minmea_rescale ⟨value, 0⟩ new_scale = some 0
      ∧ minmea_rescale_divisors ⟨value, 0⟩ new_scale = []
      ∧ minmea_rescale_intermediates ⟨value, 0⟩ new_scale = [] := by
  refine ⟨?_, ?_, ?_⟩
  · unfold minmea_rescale; rw [if_pos rfl]
  · unfold minmea_rescale_divisors; rw [if_pos rfl]
  · unfold minmea_rescale_intermediates; rw [if_pos rfl]

/-! ## The integer part of `minmea_tocoord` -/

/-- The 32-bit product `scale * 100` is zero only for a multiple of `2^30`. -/
theorem i32_mul_100_ne_zero (s : Int) (h : ¬ (1073741824 : Int) ∣ s) : i32_mul s 100 ≠ 0 := by
  unfold i32_mul wrap32
  omega

/-- The 32-bit product `60 * scale` is zero only for a multiple of `2^30`. -/
theorem i32_mul_60_ne_zero (s : Int) (h : ¬ (1073741824 : Int) ∣ s) : i32_mul 60 s ≠ 0 := by
  unfold i32_mul wrap32
  omega

/-- With non-zero 32-bit divisors, `minmea_tocoord` returns a number: the
quotient plus the remainder over the `float` divisor. -/
theorem minmea_tocoord_eq (f : minmea_float) (hs : f.scale ≠ 0)
    (hw : i32_mul f.scale 100 ≠ 0) (hw60 : i32_mul 60 f.scale ≠ 0) :
    minmea_tocoord f
      = some (c_float.num ((wrap32 (Int.tdiv f.value (i32_mul f.scale 100)) : ℚ)
          + (wrap32 (Int.tmod f.value (i32_mul f.scale 100)) : ℚ)
            / (i32_mul 60 f.scale : ℚ))) := by
  have hq : ((i32_mul 60 f.scale : Int) : ℚ) ≠ 0 := by exact_mod_cast hw60
  unfold minmea_tocoord
  rw [if_neg hs]
  simp only [i32_div, i32_mod, if_neg hw, Option.bind_eq_bind, Option.some_bind, c_float.ofInt,
    c_float.div, if_neg hq, c_float.add]

/-- Quotient and remainder of the truncating division by a positive divisor:
both carry the sign of the dividend and are no larger in magnitude. -/
theorem tdiv_tmod_cases (v b : Int) (hb : 0 < b) :
    (0 ≤ v ∧ 0 ≤ Int.tdiv v b ∧ Int.tdiv v b ≤ v ∧ 0 ≤ Int.tmod v b ∧ Int.tmod v b < b
        ∧ Int.tmod v b ≤ v)
      ∨ (v < 0 ∧ v ≤ Int.tdiv v b ∧ Int.tdiv v b ≤ 0 ∧ -b < Int.tmod v b ∧ Int.tmod v b ≤ 0
        ∧ v ≤ Int.tmod v b) := by
  rcases le_or_lt 0 v with hv | hv
  · left
    have hd : Int.tdiv v b = v / b := tdiv_pos_eq hv hb
    have hm : Int.tmod v b = v % b := by rw [Int.tmod_def, hd, Int.emod_def]
    have h1 : 0 ≤ v / b := Int.ediv_nonneg hv (le_of_lt hb)
    have h2 : v / b ≤ v := Int.ediv_le_self b hv
    have h3 : 0 ≤ v % b := Int.emod_nonneg v (ne_of_gt hb)
    have h4 : v % b < b := Int.emod_lt_of_pos v hb
    have h5 : v % b ≤ v := by
      have := mul_nonneg (le_of_lt hb) h1
      rw [Int.emod_def]; omega
    rw [hd, hm]
    exact ⟨hv, h1, h2, h3, h4, h5⟩
  · right
    have hd : Int.tdiv v b = -((-v) / b) := by
      rw [← tdiv_pos_eq (by omega : 0 ≤ -v) hb, ← Int.neg_tdiv, neg_neg]
    have hm : Int.tmod v b = -((-v) % b) := by
      rw [Int.tmod_def, hd, Int.emod_def]; ring
    have h1 : 0 ≤ (-v) / b := Int.ediv_nonneg (by omega) (le_of_lt hb)
    have h2 : (-v) / b ≤ -v := Int.ediv_le_self b (by omega)
    have h3 : 0 ≤ (-v) % b := Int.emod_nonneg (-v) (ne_of_gt hb)
    have h4 : (-v) % b < b := Int.emod_lt_of_pos (-v) hb
    have h5 : (-v) % b ≤ -v := by
      have := mul_nonneg (le_of_lt hb) h1
      rw [Int.emod_def]; omega
    rw [hd, hm]
    exact ⟨hv, by omega, by omega, by omega, by omega, by omega⟩

/-! ## Claims on the conversions to `float` -/

/-- C7: for every fixed-point `f`, `minmea_tofloat` returns not-a-number
exactly when `f.scale == 0`, and for `f.scale != 0` it returns the quotient
`f.value / f.scale`, taken as the exact rational. -/
theorem minmea_tofloat_spec (f : minmea_float) :
    (minmea_tofloat f = c_float.nan ↔ f.scale = 0)
      ∧ minmea_tofloat f
          = if f.scale = 0 then c_float.nan else c_float.num ((f.value : ℚ) / (f.scale : ℚ)) := by
  unfold minmea_tofloat c_float.ofInt c_float.div
  by_cases h : f.scale = 0
  · simp [h]
  · have hq : (f.scale : ℚ) ≠ 0 := by exact_mod_cast h
    simp [h, hq]

/-- C8 fails as stated: the scale `2^30 = 1073741824` is a non-zero 32-bit
value, its product with 100 wraps to 0 in 32-bit arithmetic, and
`minmea_tocoord` then divides by zero: it yields no number. The same happens
at the scales `-2^30` and `-2^31`. -/
theorem minmea_tocoord_zero_divisor :
    (minmea_float.wf ⟨1, 1073741824⟩ ∧ (1073741824 : Int) ≠ 0)
      ∧ i32_mul 1073741824 100 = 0
      ∧ minmea_tocoord ⟨1, 1073741824⟩ = none
      ∧ (¬ ∃ q : ℚ, minmea_tocoord ⟨1, 1073741824⟩ = some (c_float.num q))
      ∧ minmea_tocoord ⟨1, -1073741824⟩ = none
      ∧ minmea_tocoord ⟨1, -2147483648⟩ = none := by
  have h : minmea_tocoord ⟨1, 1073741824⟩ = none := by decide
  refine ⟨⟨by decide, by decide⟩, by decide, h, ?_, by decide, by decide⟩
  rintro ⟨q, hq⟩
  rw [h] at hq
  exact Option.noConfusion hq

/-- C8, amended: for every fixed-point `f` with a 32-bit scale other than
`2^30`, `-2^30` and `-2^31`, `minmea_tocoord` returns not-a-number exactly
when `f.scale == 0`: with scale 0 it yields not-a-number, and with a non-zero
scale the 32-bit divisor `f.scale * 100` is non-zero and the result is a
number. -/
theorem minmea_tocoord_nan_iff (f : minmea_float) (hs32 : inInt32 f.scale)
    (h : f.scale ≠ 1073741824 ∧ f.scale ≠ -1073741824 ∧ f.scale ≠ -2147483648) :
    (minmea_tocoord f = some c_float.nan ↔ f.scale = 0)
      ∧ (f.scale = 0 → minmea_tocoord f = some c_float.nan)
      ∧ (f.scale ≠ 0 →
          i32_mul f.scale 100 ≠ 0 ∧ ∃ q : ℚ, minmea_tocoord f = some (c_float.num q)) := by
  have hnd : f.scale ≠ 0 → ¬ (1073741824 : Int) ∣ f.scale := by
    intro hs
    unfold inInt32 INT32_MIN INT32_MAX at hs32
    omega
  have h0 : f.scale = 0 → minmea_tocoord f = some c_float.nan := by
    intro hs
    unfold minmea_tocoord
    rw [if_pos hs]
  have h1 : f.scale ≠ 0 →
      i32_mul f.scale 100 ≠ 0 ∧ ∃ q : ℚ, minmea_tocoord f = some (c_float.num q) := by
    intro hs
    exact ⟨i32_mul_100_ne_zero _ (hnd hs),
      _, minmea_tocoord_eq f hs (i32_mul_100_ne_zero _ (hnd hs)) (i32_mul_60_ne_zero _ (hnd hs))⟩
  refine ⟨⟨fun hnan => ?_, h0⟩, h0, h1⟩
  by_contra hs
  obtain ⟨_, q, hq⟩ := h1 hs
  rw [hq] at hnan
  exact c_float.noConfusion (Option.some.inj hnan)

/-- C8, amended, at `{375165, 100}`: the scale 100 is a 32-bit value other
than the three excluded ones, and the conclusion holds there. -/
theorem minmea_tocoord_nan_iff_witness :
    (inInt32 100
        ∧ ((100 : Int) ≠ 1073741824 ∧ (100 : Int) ≠ -1073741824 ∧ (100 : Int) ≠ -2147483648))
      ∧ (minmea_tocoord ⟨375165, 100⟩ = some c_float.nan ↔ (100 : Int) = 0)
      ∧ ((100 : Int) = 0 → minmea_tocoord ⟨375165, 100⟩ = some c_float.nan)
      ∧ ((100 : Int) ≠ 0 →
          i32_mul 100 100 ≠ 0
            ∧ ∃ q : ℚ, minmea_tocoord ⟨375165, 100⟩ = some (c_float.num q)) :=
  ⟨⟨by decide, by decide⟩,
    minmea_tocoord_nan_iff ⟨375165, 100⟩ (by decide) (by decide)⟩

/-- C9: `minmea_tocoord` decodes the DDMM.MMMM packing. For a 32-bit
`f.value`, `f.scale > 0` and `100 * f.scale` inside the signed 32-bit range,
with `D` the quotient `f.value / (100 * f.scale)` truncated toward zero and
`M = f.value - D * 100 * f.scale`: `D * 100 * f.scale + M = f.value`,
`|M| < 100 * f.scale`, `M` is zero or has the sign of `f.value`, and the exact
result is `D + M / (60 * f.scale)`. -/
theorem minmea_tocoord_decodes (f : minmea_float)
    (hv : inInt32 f.value) (hs : 0 < f.scale) (h100 : inInt32 (100 * f.scale)) :
    ∃ D M : Int, D = Int.tdiv f.value (100 * f.scale)
      ∧ M = f.value - D * 100 * f.scale
      ∧ D * 100 * f.scale + M = f.value
      ∧ |M| < 100 * f.scale
      ∧ (M = 0 ∨ (0 < M ∧ 0 < f.value) ∨ (M < 0 ∧ f.value < 0))
      ∧ minmea_tocoord f
          = some (c_float.num ((D : ℚ) + (M : ℚ) / (60 * (f.scale : ℚ)))) := by
  have hb : 0 < 100 * f.scale := by omega
  have hw : i32_mul f.scale 100 = 100 * f.scale := by
    unfold i32_mul; rw [mul_comm, wrap32_of_inInt32 h100]
  have hw60 : i32_mul 60 f.scale = 60 * f.scale := by
    unfold i32_mul
    apply wrap32_of_inInt32
    unfold inInt32 INT32_MIN INT32_MAX at h100 ⊢
    omega
  have hM : Int.tmod f.value (100 * f.scale)
      = f.value - Int.tdiv f.value (100 * f.scale) * 100 * f.scale := by
    rw [Int.tmod_def]; ring
  have hc := tdiv_tmod_cases f.value (100 * f.scale) hb
  have hD32 : inInt32 (Int.tdiv f.value (100 * f.scale)) := by
    unfold inInt32 INT32_MIN INT32_MAX at hv h100 ⊢
    omega
  have hM32 : inInt32 (Int.tmod f.value (100 * f.scale)) := by
    unfold inInt32 INT32_MIN INT32_MAX at hv h100 ⊢
    omega
  refine ⟨_, _, rfl, rfl, by ring, ?_, ?_, ?_⟩
  · rw [← hM, abs_lt]
    omega
  · rw [← hM]
    omega
  · rw [minmea_tocoord_eq f (by omega) (by rw [hw]; omega) (by rw [hw60]; omega), hw, hw60,
      wrap32_of_inInt32 hD32, wrap32_of_inInt32 hM32, hM]
    push_cast
    rfl

/-- C9, at the field 3751.65, `{375165, 100}`: the hypotheses hold, the whole
degrees are 37, the minutes part is 5165 hundredths, and the result is
`37 + 5165 / 6000`, that is 37 + 51.65/60. -/
theorem minmea_tocoord_decodes_witness :
    (inInt32 375165 ∧ (0 : Int) < 100 ∧ inInt32 (100 * 100))
      ∧ Int.tdiv 375165 (100 * 100) = 37
      ∧ (375165 : Int) - 37 * 100 * 100 = 5165
      ∧ ∃ D M : Int, D = Int.tdiv 375165 (100 * 100)
          ∧ M = 375165 - D * 100 * 100
          ∧ D * 100 * 100 + M = 375165
          ∧ |M| < 100 * 100
          ∧ (M = 0 ∨ (0 < M ∧ (0 : Int) < 375165) ∨ (M < 0 ∧ (375165 : Int) < 0))
          ∧ minmea_tocoord ⟨375165, 100⟩
              = some (c_float.num ((D : ℚ) + (M : ℚ) / (60 * ((100 : Int) : ℚ)))) :=
  ⟨⟨by decide, by decide, by decide⟩, by decide, by decide,
    minmea_tocoord_decodes ⟨375165, 100⟩ (by decide) (by decide) (by decide)⟩

/-! ## Claims on `enum minmea_sentence_id` -/

/-- C10: the sentence-kind enumeration is closed and its tags are
distinguishable. `MINMEA_INVALID` is -1 and `MINMEA_UNKNOWN` is 0; the
fourteen recognised kinds have pairwise distinct values (the value map is
injective on the whole enumeration), all strictly positive, namely 1 to 14 in
declaration order; the id of an enumerator is greater than 0 exactly when it
names a recognised kind. -/
theorem minmea_sentence_id_values :
    minmea_sentence_id.MINMEA_INVALID.toInt = -1
      ∧ minmea_sentence_id.MINMEA_UNKNOWN.toInt = 0
      ∧ minmea_sentence_id.MINMEA_INVALID.toInt ≠ minmea_sentence_id.MINMEA_UNKNOWN.toInt
      ∧ (∀ k : minmea_sentence_id, k ∈ minmea_sentence_id.all)
      ∧ (minmea_sentence_id.all.filter minmea_sentence_id.recognised).length = 14
      ∧ (minmea_sentence_id.all.filter minmea_sentence_id.recognised).map minmea_sentence_id.toInt
          = [1, 2, 3, 4, 5, 6, 7, 8, 9, 10, 11, 12, 13, 14]
      ∧ (∀ a b : minmea_sentence_id, a.toInt = b.toInt → a = b)
      ∧ (∀ k : minmea_sentence_id, 0 < k.toInt ↔ k.recognised = true) := by
  refine ⟨by decide, by decide, by decide, ?_, by decide, by decide, ?_, ?_⟩
  · intro k; cases k <;> decide
  · intro a b; cases a <;> cases b <;> decide
  · intro k; cases k <;> decide

/-! ## Further claims on `minmea_rescale` -/

/-- C11: no division by zero under the scale invariant. For a 32-bit
`f.scale > 0` and every `new_scale > 0`, whether or not one divides the other,
every division that `minmea_rescale` performs has a non-zero divisor and the
call returns a result; in the down-scaling branch the last divisor is
`f.scale / new_scale`, at least 1, and in the up-scaling branch the only
divisor is `f.scale` itself. -/
theorem minmea_rescale_divisors_ne_zero (f : minmea_float) (new_scale : Int)
    (hs32 : inInt32 f.scale) (hs : 0 < f.scale) (hn : 0 < new_scale) :
    (∀ d ∈ minmea_rescale_divisors f new_scale, d ≠ 0)
      ∧ (∃ r : Int, minmea_rescale f new_scale = some r)
      ∧ (f.scale > new_scale →
          1 ≤ f.scale / new_scale
            ∧ minmea_rescale_divisors f new_scale
                = [new_scale, 2, new_scale, f.scale / new_scale])
      ∧ (f.scale < new_scale → minmea_rescale_divisors f new_scale = [f.scale]) := by
  have hs0 : f.scale ≠ 0 := by omega
  have hn0 : new_scale ≠ 0 := by omega
  have h20 : (2 : Int) ≠ 0 := by norm_num
  rcases lt_trichotomy f.scale new_scale with hlt | heq | hgt
  · have hsn : f.scale ≠ new_scale := by omega
    have hng : ¬ f.scale > new_scale := by omega
    have hd : minmea_rescale_divisors f new_scale = [f.scale] := by
      unfold minmea_rescale_divisors
      rw [if_neg hs0, if_neg hsn, if_neg hng]
    refine ⟨?_, ?_, fun h => absurd h hng, fun _ => hd⟩
    · rw [hd]
      intro d hd'
      rw [List.mem_singleton] at hd'
      omega
    · unfold minmea_rescale
      rw [if_neg hs0, if_neg hsn, if_neg hng]
      simp only [i32_div, if_neg hs0, Option.bind_eq_bind, Option.some_bind]
      exact ⟨_, rfl⟩
  · have hd : minmea_rescale_divisors f new_scale = [] := by
      unfold minmea_rescale_divisors
      rw [if_neg hs0, if_pos heq]
    refine ⟨?_, ?_, fun h => by omega, fun h => by omega⟩
    · rw [hd]
      intro d hd'
      exact absurd hd' (List.not_mem_nil d)
    · unfold minmea_rescale
      rw [if_neg hs0, if_pos heq]
      exact ⟨_, rfl⟩
  · have hsn : f.scale ≠ new_scale := by omega
    have hk : 1 ≤ f.scale / new_scale := scale_quot_pos hn hgt
    have hkle : f.scale / new_scale ≤ f.scale := Int.ediv_le_self _ (by omega)
    have hkt : Int.tdiv f.scale new_scale = f.scale / new_scale := tdiv_pos_eq (by omega) hn
    have hk32 : inInt32 (f.scale / new_scale) := by
      unfold inInt32 INT32_MIN INT32_MAX at hs32 ⊢
      omega
    have hd : minmea_rescale_divisors f new_scale
        = [new_scale, 2, new_scale, f.scale / new_scale] := by
      unfold minmea_rescale_divisors
      rw [if_neg hs0, if_neg hsn, if_pos hgt, hkt, wrap32_of_inInt32 hk32]
    have hk0 : f.scale / new_scale ≠ 0 := by omega
    refine ⟨?_, ?_, fun _ => ⟨hk, hd⟩, fun h => by omega⟩
    · rw [hd]
      intro d hd'
      simp only [List.mem_cons, List.mem_singleton, List.not_mem_nil, or_false] at hd'
      rcases hd' with h | h | h | h <;> rw [h] <;> assumption
    · unfold minmea_rescale
      rw [if_neg hs0, if_neg hsn, if_pos hgt]
      simp only [i32_div, if_neg hn0, if_neg h20, hkt, wrap32_of_inInt32 hk32, if_neg hk0,
        Option.bind_eq_bind, Option.some_bind]
      exact ⟨_, rfl⟩

/-- C11, at `{1234, 10}` rescaled to 3, a scale that does not divide 10: the
hypotheses hold, the divisors are 3, 2, 3 and 3, and the call returns 411. -/
theorem minmea_rescale_divisors_ne_zero_witness :
    (inInt32 10 ∧ (0 : Int) < 10 ∧ (0 : Int) < 3)
      ∧ minmea_rescale_divisors ⟨1234, 10⟩ 3 = [3, 2, 3, 3]
      ∧ minmea_rescale ⟨1234, 10⟩ 3 = some 411
      ∧ (∀ d ∈ minmea_rescale_divisors ⟨1234, 10⟩ 3, d ≠ 0)
      ∧ (∃ r : Int, minmea_rescale ⟨1234, 10⟩ 3 = some r)
      ∧ ((10 : Int) > 3 →
          1 ≤ (10 : Int) / 3
            ∧ minmea_rescale_divisors ⟨1234, 10⟩ 3 = [3, 2, 3, (10 : Int) / 3])
      ∧ ((10 : Int) < 3 → minmea_rescale_divisors ⟨1234, 10⟩ 3 = [10]) :=
  ⟨⟨by decide, by decide, by decide⟩, by decide, by decide,
    minmea_rescale_divisors_ne_zero ⟨1234, 10⟩ 3 (by decide) (by decide) (by decide)⟩

/-- Truncating division by a positive divisor is monotone in the dividend. -/
theorem tdiv_mono {a b k : Int} (hk : 0 < k) (h : a ≤ b) : Int.tdiv a k ≤ Int.tdiv b k := by
  rcases le_or_lt 0 a with ha | ha
  · rw [tdiv_pos_eq ha hk, tdiv_pos_eq (le_trans ha h) hk]
    exact Int.ediv_le_ediv hk h
  · rcases le_or_lt 0 b with hb | hb
    · have h1 := tdiv_tmod_cases a k hk
      have h2 := tdiv_tmod_cases b k hk
      omega
    · have ea : Int.tdiv a k = -((-a) / k) := by
        rw [← tdiv_pos_eq (by omega : 0 ≤ -a) hk, ← Int.neg_tdiv, neg_neg]
      have eb : Int.tdiv b k = -((-b) / k) := by
        rw [← tdiv_pos_eq (by omega : 0 ≤ -b) hk, ← Int.neg_tdiv, neg_neg]
      have := Int.ediv_le_ediv hk (by omega : -b ≤ -a)
      rw [ea, eb]
      omega

/-- The dividend of the down-scaling branch, the value plus its signed
rounding adjustment, is monotone in the value. -/
theorem adjusted_mono {v1 v2 j : Int} (hj : 0 ≤ j) (h : v1 ≤ v2) :
    v1 + (c_gt v1 0 - c_lt v1 0) * j ≤ v2 + (c_gt v2 0 - c_lt v2 0) * j := by
  rcases c_sign_cases v1 with ⟨h1, e1⟩ | ⟨h1, e1⟩ | ⟨h1, e1⟩ <;>
    rcases c_sign_cases v2 with ⟨h2, e2⟩ | ⟨h2, e2⟩ | ⟨h2, e2⟩ <;>
    rw [e1, e2] <;> omega

/-- The sign expression of the source is odd: negating the value negates it. -/
theorem c_sign_neg (v : Int) : c_gt (-v) 0 - c_lt (-v) 0 = -(c_gt v 0 - c_lt v 0) := by
  rcases c_sign_cases v with ⟨h1, e1⟩ | ⟨h1, e1⟩ | ⟨h1, e1⟩ <;>
    rcases c_sign_cases (-v) with ⟨h2, e2⟩ | ⟨h2, e2⟩ | ⟨h2, e2⟩ <;>
    rw [e1, e2] <;> omega

/-- C12: rescaling preserves order. For a scale `s > 0`, a new scale
`n > 0` and values `v1 <= v2`, both evaluated without 32-bit overflow, both
calls return and `minmea_rescale({v1, s}, n) <= minmea_rescale({v2, s}, n)`. -/
theorem minmea_rescale_monotone (v1 v2 s n : Int)
    (hs : 0 < s) (hn : 0 < n) (hle : v1 ≤ v2)
    (hov1 : rescale_no_overflow ⟨v1, s⟩ n) (hov2 : rescale_no_overflow ⟨v2, s⟩ n) :
    ∃ r1 r2 : Int, minmea_rescale ⟨v1, s⟩ n = some r1
      ∧ minmea_rescale ⟨v2, s⟩ n = some r2 ∧ r1 ≤ r2 := by
  rcases lt_trichotomy s n with hlt | heq | hgt
  · have hk : 1 ≤ n / s := scale_quot_pos hs hlt
    refine ⟨_, _, minmea_rescale_up ⟨v1, s⟩ n hs hlt hov1,
      minmea_rescale_up ⟨v2, s⟩ n hs hlt hov2, ?_⟩
    have hk0 : 0 ≤ n / s := by omega
    exact Int.mul_le_mul_of_nonneg_right hle hk0
  · subst heq
    exact ⟨v1, v2, minmea_rescale_same ⟨v1, s⟩ (by show s ≠ 0; omega),
      minmea_rescale_same ⟨v2, s⟩ (by show s ≠ 0; omega), hle⟩
  · have hk : 1 ≤ s / n := scale_quot_pos hn hgt
    refine ⟨_, _, minmea_rescale_down ⟨v1, s⟩ n hn hgt hov1,
      minmea_rescale_down ⟨v2, s⟩ n hn hgt hov2, ?_⟩
    have hkp : 0 < s / n := by omega
    have hj : 0 ≤ s / n / 2 := by omega
    exact tdiv_mono hkp (adjusted_mono hj hle)

/-- C12, at the values 1234 and 1235 with scale 10 rescaled to 1: the
hypotheses hold and the results are 123 and 124. -/
theorem minmea_rescale_monotone_witness :
    ((0 : Int) < 10 ∧ (0 : Int) < 1 ∧ (1234 : Int) ≤ 1235
        ∧ rescale_no_overflow ⟨1234, 10⟩ 1 ∧ rescale_no_overflow ⟨1235, 10⟩ 1)
      ∧ ∃ r1 r2 : Int, minmea_rescale ⟨1234, 10⟩ 1 = some r1
          ∧ minmea_rescale ⟨1235, 10⟩ 1 = some r2 ∧ r1 ≤ r2 :=
  ⟨⟨by decide, by decide, by decide, by decide, by decide⟩,
    minmea_rescale_monotone 1234 1235 10 1 (by decide) (by decide) (by decide) (by decide)
      (by decide)⟩

/-- C13: rescaling is sign-symmetric. For a 32-bit value `v` other than the
minimum 32-bit integer, a scale `s > 0` and a new scale `n > 0`, with both
calls evaluated without 32-bit overflow, `-v` is again a 32-bit value and
`minmea_rescale({-v, s}, n) = -minmea_rescale({v, s}, n)`. -/
theorem minmea_rescale_neg (v s n : Int)
    (hv : inInt32 v) (hmin : v ≠ INT32_MIN) (hs : 0 < s) (hn : 0 < n)
    (hov : rescale_no_overflow ⟨v, s⟩ n) (hovn : rescale_no_overflow ⟨-v, s⟩ n) :
    inInt32 (-v)
      ∧ ∃ r : Int, minmea_rescale ⟨v, s⟩ n = some r
          ∧ minmea_rescale ⟨-v, s⟩ n = some (-r) := by
  refine ⟨?_, ?_⟩
  · unfold INT32_MIN at hmin
    unfold inInt32 INT32_MIN INT32_MAX at hv ⊢
    omega
  rcases lt_trichotomy s n with hlt | heq | hgt
  · refine ⟨_, minmea_rescale_up ⟨v, s⟩ n hs hlt hov, ?_⟩
    rw [minmea_rescale_up ⟨-v, s⟩ n hs hlt hovn]
    show some (-v * (n / s)) = some (-(v * (n / s)))
    rw [neg_mul]
  · subst heq
    exact ⟨v, minmea_rescale_same ⟨v, s⟩ (by show s ≠ 0; omega),
      minmea_rescale_same ⟨-v, s⟩ (by show s ≠ 0; omega)⟩
  · refine ⟨_, minmea_rescale_down ⟨v, s⟩ n hn hgt hov, ?_⟩
    rw [minmea_rescale_down ⟨-v, s⟩ n hn hgt hovn]
    show some (Int.tdiv (-v + (c_gt (-v) 0 - c_lt (-v) 0) * (s / n / 2)) (s / n))
      = some (-Int.tdiv (v + (c_gt v 0 - c_lt v 0) * (s / n / 2)) (s / n))
    rw [c_sign_neg, ← Int.neg_tdiv]
    congr 2
    ring

/-- C13, at the value 1235 with scale 10 rescaled to 1: the hypotheses hold,
1235 gives 124 and -1235 gives -124. -/
theorem minmea_rescale_neg_witness :
    (inInt32 1235 ∧ (1235 : Int) ≠ INT32_MIN ∧ (0 : Int) < 10 ∧ (0 : Int) < 1
        ∧ rescale_no_overflow ⟨1235, 10⟩ 1 ∧ rescale_no_overflow ⟨-1235, 10⟩ 1)
      ∧ minmea_rescale ⟨1235, 10⟩ 1 = some 124
      ∧ minmea_rescale ⟨-1235, 10⟩ 1 = some (-124)
      ∧ inInt32 (-1235)
      ∧ ∃ r : Int, minmea_rescale ⟨1235, 10⟩ 1 = some r
          ∧ minmea_rescale ⟨-1235, 10⟩ 1 = some (-r) :=
  ⟨⟨by decide, by decide, by decide, by decide, by decide, by decide⟩, by decide, by decide,
    minmea_rescale_neg 1235 10 1 (by decide) (by decide) (by decide) (by decide) (by decide)
      (by decide)⟩

/-- The first quotient of the rounding adjustment, `sgn * scale / new_scale`,
is the sign times the scale quotient. -/
theorem sign_scale_tdiv (v s n : Int) (hn : 0 < n) (hlt : n < s) :
    Int.tdiv ((c_gt v 0 - c_lt v 0) * s) n = (c_gt v 0 - c_lt v 0) * (s / n) := by
  have hs : 0 ≤ s := by omega
  rcases c_sign_cases v with ⟨_, h⟩ | ⟨_, h⟩ | ⟨_, h⟩ <;> rw [h]
  · rw [one_mul, one_mul, tdiv_pos_eq hs hn]
  · simp
  · rw [neg_one_mul, neg_one_mul, Int.neg_tdiv, tdiv_pos_eq hs hn]

/-- In the down-scaling branch the evaluation over the unbounded integers
returns the value of the source expression. -/
theorem minmea_rescale_exact_down (f : minmea_float) (n : Int)
    (hpos : 0 < n) (hlt : n < f.scale) :
    minmea_rescale_exact f n
      = some (Int.tdiv (f.value + (c_gt f.value 0 - c_lt f.value 0) * (f.scale / n / 2))
          (f.scale / n)) := by
  have hs0 : f.scale ≠ 0 := by omega
  have hsn : f.scale ≠ n := by omega
  have hn0 : n ≠ 0 := by omega
  have h20 : (2 : Int) ≠ 0 := by norm_num
  have hk : 1 ≤ f.scale / n := scale_quot_pos hpos hlt
  have hkt : Int.tdiv f.scale n = f.scale / n := tdiv_pos_eq (by omega) hpos
  have hk0 : f.scale / n ≠ 0 := by omega
  unfold minmea_rescale_exact
  rw [if_neg hs0, if_neg hsn, if_pos hlt]
  simp only [int_div, if_neg hn0, if_neg h20, hkt, if_neg hk0, Option.bind_eq_bind,
    Option.some_bind]
  rw [adj_eq f.value f.scale n hpos hlt]

/-- Under the magnitude bound of the down-scaling branch, every intermediate
result lies in the signed 32-bit range. -/
theorem rescale_down_in_range (f : minmea_float) (n : Int)
    (hs32 : inInt32 f.scale) (hpos : 0 < n) (hlt : n < f.scale)
    (hv : |f.value| ≤ 2147483647 - f.scale / n / 2) :
    rescale_no_overflow f n := by
  have hs0 : f.scale ≠ 0 := by omega
  have hsn : f.scale ≠ n := by omega
  have hk : 1 ≤ f.scale / n := scale_quot_pos hpos hlt
  have hkle : f.scale / n ≤ f.scale := Int.ediv_le_self _ (by omega)
  have hkt : Int.tdiv f.scale n = f.scale / n := tdiv_pos_eq (by omega) hpos
  have hb := abs_le.1 hv
  have hc := tdiv_tmod_cases
    (f.value + (c_gt f.value 0 - c_lt f.value 0) * (f.scale / n / 2)) (f.scale / n) (by omega)
  unfold rescale_no_overflow minmea_rescale_intermediates
  rw [if_neg hs0, if_neg hsn, if_pos hlt]
  simp only [List.mem_cons, List.mem_singleton, List.not_mem_nil, or_false, forall_eq_or_imp,
    forall_eq]
  rw [adj_eq f.value f.scale n hpos hlt, sign_scale_tdiv f.value f.scale n hpos hlt, hkt]
  unfold inInt32 INT32_MIN INT32_MAX at hs32 ⊢
  rcases c_sign_cases f.value with ⟨_, h⟩ | ⟨_, h⟩ | ⟨_, h⟩ <;> rw [h] at hc ⊢ <;>
    refine ⟨?_, ?_, ?_, ?_, ?_, ?_, ?_⟩ <;> omega

/-- C14: down-scaling does not overflow on large values. For a 32-bit
`f.scale`, `0 < new_scale < f.scale` and
`|f.value| <= 2^31 - 1 - (f.scale / new_scale) / 2`, every intermediate result
of `minmea_rescale` lies inside the signed 32-bit range, and the evaluation
with 32-bit wraparound returns the same result as the evaluation over the
unbounded integers. -/
theorem minmea_rescale_down_no_overflow (f : minmea_float) (new_scale : Int)
    (hs32 : inInt32 f.scale) (hpos : 0 < new_scale) (hlt : new_scale < f.scale)
    (hv : |f.value| ≤ 2147483647 - f.scale / new_scale / 2) :
    rescale_no_overflow f new_scale
      ∧ ∃ r : Int, minmea_rescale f new_scale = some r
          ∧ minmea_rescale_exact f new_scale = some r :=
  ⟨rescale_down_in_range f new_scale hs32 hpos hlt hv, _,
    minmea_rescale_down f new_scale hpos hlt (rescale_down_in_range f new_scale hs32 hpos hlt hv),
    minmea_rescale_exact_down f new_scale hpos hlt⟩

/-- C14, at `{510693608, 100000}` rescaled to 10000: the hypotheses hold and
both evaluations give 51069361. -/
theorem minmea_rescale_down_no_overflow_witness :
    (inInt32 100000 ∧ (0 : Int) < 10000 ∧ (10000 : Int) < 100000
        ∧ |(510693608 : Int)| ≤ 2147483647 - (100000 : Int) / 10000 / 2)
      ∧ minmea_rescale ⟨510693608, 100000⟩ 10000 = some 51069361
      ∧ minmea_rescale_exact ⟨510693608, 100000⟩ 10000 = some 51069361
      ∧ rescale_no_overflow ⟨510693608, 100000⟩ 10000
      ∧ ∃ r : Int, minmea_rescale ⟨510693608, 100000⟩ 10000 = some r
          ∧ minmea_rescale_exact ⟨510693608, 100000⟩ 10000 = some r :=
  ⟨⟨by decide, by decide, by decide, by decide⟩, by decide, by decide,
    minmea_rescale_down_no_overflow ⟨510693608, 100000⟩ 10000 (by decide) (by decide)
      (by decide) (by decide)⟩

/-! ## Further claims on `minmea_tocoord` -/

/-- With a 32-bit value and a positive scale whose product with 100 fits 32
bits, the 32-bit evaluation of `minmea_tocoord` agrees with the evaluation
over the unbounded integers. -/
theorem minmea_tocoord_eq_exact (f : minmea_float)
    (hv : inInt32 f.value) (hs : 0 < f.scale) (h100 : inInt32 (f.scale * 100)) :
    minmea_tocoord f = minmea_tocoord_exact f := by
  have hb : 0 < f.scale * 100 := by omega
  have hw : i32_mul f.scale 100 = f.scale * 100 := by
    unfold i32_mul; rw [wrap32_of_inInt32 h100]
  have hw60 : i32_mul 60 f.scale = 60 * f.scale := by
    unfold i32_mul
    apply wrap32_of_inInt32
    unfold inInt32 INT32_MIN INT32_MAX at h100 ⊢
    omega
  have hc := tdiv_tmod_cases f.value (f.scale * 100) hb
  have hD32 : inInt32 (Int.tdiv f.value (f.scale * 100)) := by
    unfold inInt32 INT32_MIN INT32_MAX at hv h100 ⊢
    omega
  have hM32 : inInt32 (Int.tmod f.value (f.scale * 100)) := by
    unfold inInt32 INT32_MIN INT32_MAX at hv h100 ⊢
    omega
  have hq : ((60 * f.scale : Int) : ℚ) ≠ 0 := by
    have : 60 * f.scale ≠ 0 := by omega
    exact_mod_cast this
  rw [minmea_tocoord_eq f (by omega) (by rw [hw]; omega) (by rw [hw60]; omega), hw, hw60,
    wrap32_of_inInt32 hD32, wrap32_of_inInt32 hM32]
  unfold minmea_tocoord_exact
  rw [if_neg (by omega), if_neg (by omega)]
  simp only [c_float.ofInt, c_float.div, if_neg hq, c_float.add]

/-- At the scale `10^8` the product with 100 wraps to 1410065408, and the
value 2000000000 is split into 1 degree by the 32-bit evaluation where the
packing has 0 degrees; the results differ. -/
theorem minmea_tocoord_wraps_pow8 :
    i32_mul 100000000 100 = 1410065408
      ∧ minmea_tocoord_degrees ⟨2000000000, 100000000⟩ = some 1
      ∧ Int.tdiv 2000000000 (100000000 * 100) = 0
      ∧ minmea_tocoord ⟨2000000000, 100000000⟩
          ≠ minmea_tocoord_exact ⟨2000000000, 100000000⟩ := by
  refine ⟨by decide, by decide, by decide, ?_⟩
  rw [minmea_tocoord_eq _ (by decide) (by decide) (by decide)]
  unfold minmea_tocoord_exact
  rw [if_neg (by decide), if_neg (by decide)]
  simp only [c_float.ofInt, c_float.div, c_float.add]
  have e1 : wrap32 (Int.tdiv 2000000000 (i32_mul 100000000 100)) = 1 := by decide
  have e2 : wrap32 (Int.tmod 2000000000 (i32_mul 100000000 100)) = 589934592 := by decide
  have e3 : i32_mul 60 100000000 = 1705032704 := by decide
  have e4 : Int.tdiv 2000000000 (100000000 * 100) = 0 := by decide
  have e5 : Int.tmod 2000000000 (100000000 * 100) = 2000000000 := by decide
  show ¬ _
  simp only [e1, e2, e3, e4, e5]
  norm_num

/-- At the scale `10^9` the product with 100 wraps to 1215752192, and the
value 2000000000 is split into 1 degree by the 32-bit evaluation where the
packing has 0 degrees; the results differ. -/
theorem minmea_tocoord_wraps_pow9 :
    i32_mul 1000000000 100 = 1215752192
      ∧ minmea_tocoord_degrees ⟨2000000000, 1000000000⟩ = some 1
      ∧ Int.tdiv 2000000000 (1000000000 * 100) = 0
      ∧ minmea_tocoord ⟨2000000000, 1000000000⟩
          ≠ minmea_tocoord_exact ⟨2000000000, 1000000000⟩ := by
  refine ⟨by decide, by decide, by decide, ?_⟩
  rw [minmea_tocoord_eq _ (by decide) (by decide) (by decide)]
  unfold minmea_tocoord_exact
  rw [if_neg (by decide), if_neg (by decide)]
  simp only [c_float.ofInt, c_float.div, c_float.add]
  have e1 : wrap32 (Int.tdiv 2000000000 (i32_mul 1000000000 100)) = 1 := by decide
  have e2 : wrap32 (Int.tmod 2000000000 (i32_mul 1000000000 100)) = 784247808 := by decide
  have e3 : i32_mul 60 1000000000 = -129542144 := by decide
  have e4 : Int.tdiv 2000000000 (1000000000 * 100) = 0 := by decide
  have e5 : Int.tmod 2000000000 (1000000000 * 100) = 2000000000 := by decide
  show ¬ _
  simp only [e1, e2, e3, e4, e5]
  norm_num

/-- C15: the range of scales `minmea_tocoord` supports. For a power-of-ten
scale `10^k` with `0 <= k <= 9`, which is a 32-bit value, the products
`f.scale * 100` and `60 * f.scale` stay inside the signed 32-bit range exactly
when `k <= 7`, and the 32-bit evaluation then agrees with the evaluation over
the unbounded integers for every 32-bit value. For `k = 8` and `k = 9` the
product `f.scale * 100` exceeds the range, the wrapped divisor is not
`100 * f.scale`, and there is a 32-bit value whose degrees are not the quotient
by `100 * f.scale` and whose result is not the one of the packing. -/
theorem minmea_tocoord_scale_range (k : Nat) (hk : k ≤ 9) :
    inInt32 ((10 : Int) ^ k)
      ∧ ((inInt32 ((10 : Int) ^ k * 100) ∧ inInt32 (60 * (10 : Int) ^ k)) ↔ k ≤ 7)
      ∧ (k ≤ 7 → ∀ v : Int, inInt32 v →
          minmea_tocoord ⟨v, 10 ^ k⟩ = minmea_tocoord_exact ⟨v, 10 ^ k⟩)
      ∧ (7 < k →
          ¬ inInt32 ((10 : Int) ^ k * 100)
            ∧ i32_mul (10 ^ k) 100 ≠ (10 : Int) ^ k * 100
            ∧ ∃ v : Int, inInt32 v
                ∧ minmea_tocoord_degrees ⟨v, 10 ^ k⟩ ≠ some (Int.tdiv v (10 ^ k * 100))
                ∧ minmea_tocoord ⟨v, 10 ^ k⟩ ≠ minmea_tocoord_exact ⟨v, 10 ^ k⟩) := by
  have h8 : (10 : Int) ^ 8 = 100000000 := by norm_num
  have h9 : (10 : Int) ^ 9 = 1000000000 := by norm_num
  refine ⟨?_, ?_, ?_, ?_⟩
  · interval_cases k <;> norm_num [inInt32, INT32_MIN, INT32_MAX]
  · interval_cases k <;> norm_num [inInt32, INT32_MIN, INT32_MAX]
  · intro hk7 v hv
    refine minmea_tocoord_eq_exact ⟨v, 10 ^ k⟩ hv (by show (0 : Int) < 10 ^ k; positivity) ?_
    show inInt32 ((10 : Int) ^ k * 100)
    interval_cases k <;> norm_num [inInt32, INT32_MIN, INT32_MAX]
  · intro hk7
    have hk89 : k = 8 ∨ k = 9 := by omega
    rcases hk89 with rfl | rfl
    · rw [h8]
      obtain ⟨e1, e2, e3, e4⟩ := minmea_tocoord_wraps_pow8
      refine ⟨by decide, by decide, 2000000000, by decide, ?_, e4⟩
      rw [e2, e3]
      decide
    · rw [h9]
      obtain ⟨e1, e2, e3, e4⟩ := minmea_tocoord_wraps_pow9
      refine ⟨by decide, by decide, 2000000000, by decide, ?_, e4⟩
      rw [e2, e3]
      decide

/-- C15, at `k = 8`: the scale `10^8` is a 32-bit value for which the
products leave the range. -/
theorem minmea_tocoord_scale_range_witness :
    (8 ≤ 9)
      ∧ inInt32 ((10 : Int) ^ 8)
      ∧ ((inInt32 ((10 : Int) ^ 8 * 100) ∧ inInt32 (60 * (10 : Int) ^ 8)) ↔ 8 ≤ 7)
      ∧ (8 ≤ 7 → ∀ v : Int, inInt32 v →
          minmea_tocoord ⟨v, 10 ^ 8⟩ = minmea_tocoord_exact ⟨v, 10 ^ 8⟩)
      ∧ (7 < 8 →
          ¬ inInt32 ((10 : Int) ^ 8 * 100)
            ∧ i32_mul (10 ^ 8) 100 ≠ (10 : Int) ^ 8 * 100
            ∧ ∃ v : Int, inInt32 v
                ∧ minmea_tocoord_degrees ⟨v, 10 ^ 8⟩ ≠ some (Int.tdiv v (10 ^ 8 * 100))
                ∧ minmea_tocoord ⟨v, 10 ^ 8⟩ ≠ minmea_tocoord_exact ⟨v, 10 ^ 8⟩) :=
  ⟨by decide, minmea_tocoord_scale_range 8 (by decide)⟩

end Minmea
